import Mathlib

/-!
Verification development for the Spotify workout-playlist ingestion pipeline
(`src/pipelines/prefect_flows/spotify_ingestion.py`, with configuration
constants from `src/config/data_strategy.py`).

The Python source is shallowly embedded: pure functions become Lean
functions, the paginated fetch loop becomes a fuel-indexed recursion over a
page oracle, and the DuckDB store becomes an explicit record of three row
lists.  Character classes (`\w`, `\s`, `str.lower`) are modelled by their
ASCII behaviour, which is what every concrete input in this development
exercises.
-/

namespace SpotifyIngestion

/-! ## Text normalizer: `clean_string` (spotify_ingestion.py lines 18-24) -/

/-- Python `\s` (ASCII fragment). -/
def isSpaceChar (c : Char) : Bool := c.isWhitespace

/-- Python `\w` (ASCII fragment): letters, digits and underscore. -/
def wordChar (c : Char) : Bool := c.isAlphanum || c == '_'

/-- The spec's kept-character class: letters and digits only (no underscore). -/
def specKeptChar (c : Char) : Bool := c.isAlphanum

/-- `re.sub(r'\s+', ' ', s)`: each maximal whitespace run becomes one space.
The Boolean argument records whether the previous character was whitespace. -/
def collapseAux : Bool → List Char → List Char
  | _, [] => []
  | prevSpace, c :: cs =>
    if isSpaceChar c then
      if prevSpace then collapseAux true cs
      else ' ' :: collapseAux true cs
    else c :: collapseAux false cs

def collapseWS (l : List Char) : List Char := collapseAux false l

/-- Trailing-whitespace part of `str.strip()`. -/
def dropTrailingWS (l : List Char) : List Char :=
  (l.reverse.dropWhile isSpaceChar).reverse

/-- `str.strip()`. -/
def stripWS (l : List Char) : List Char :=
  dropTrailingWS (l.dropWhile isSpaceChar)

/-- `clean_string` from the source: lower-case, drop characters matching
`[^\w\s]`, collapse whitespace runs to one space, strip.  Empty ("falsy")
input returns the empty string. -/
def cleanString (s : String) : String :=
  if s.isEmpty then ""
  else ⟨stripWS (collapseWS ((s.data.map Char.toLower).filter
    (fun c => wordChar c || isSpaceChar c)))⟩

/-- Maximal runs of non-whitespace characters, via an accumulator for the
word currently being read (stored reversed). -/
def wordsAux : List Char → List Char → List (List Char)
  | cur, [] => if cur.isEmpty then [] else [cur.reverse]
  | cur, c :: cs =>
    if isSpaceChar c then
      if cur.isEmpty then wordsAux [] cs
      else cur.reverse :: wordsAux [] cs
    else wordsAux (c :: cur) cs

def wordsOf (l : List Char) : List (List Char) := wordsAux [] l

def joinWords : List (List Char) → List Char
  | [] => []
  | [w] => w
  | w :: v :: ws => w ++ ' ' :: joinWords (v :: ws)

/-- The normalizer described by the spec's words, read literally: lower-case,
keep only letters/digits/whitespace, then the maximal whitespace-run collapse
plus trim is rendered as joining the whitespace-separated words with single
spaces. -/
def specNormalize (s : String) : String :=
  ⟨joinWords (wordsOf ((s.data.map Char.toLower).filter
    (fun c => specKeptChar c || isSpaceChar c)))⟩

/-- The spec normalizer amended to also keep underscore, matching Python `\w`. -/
def specNormalizeAmended (s : String) : String :=
  ⟨joinWords (wordsOf ((s.data.map Char.toLower).filter
    (fun c => wordChar c || isSpaceChar c)))⟩

/-! ## Raw API records and the track mapper (lines 80-115) -/

/-- Raw album object: `track.get('album', {})` with `.get('name', 'Unknown')`
and `.get('release_date', '')`. -/
structure RawAlbum where
  name : Option String
  release_date : Option String
deriving DecidableEq

/-- Raw artist object: `artists[0].get('name', 'Unknown')`. -/
structure RawArtist where
  name : Option String
deriving DecidableEq

/-- Raw track object as read by the source.  `name` is accessed with
`track['name']`, i.e. assumed present; every other field goes through
`.get` with a default. -/
structure RawTrack where
  id : Option String
  name : String
  artists : List RawArtist
  album : Option RawAlbum
  duration_ms : Option Int
  popularity : Option Nat
  explicit : Option Bool
deriving DecidableEq

/-- Normalized child record appended to `all_tracks` (lines 103-115). -/
structure TrackRec where
  track_id : String
  track_name : String
  track_name_clean : String
  artist_name : String
  artist_name_clean : String
  album_name : String
  release_year : Option Int
  duration_ms : Int
  popularity : Nat
  explicit : Bool
  playlist_id : String
deriving DecidableEq

/-- `release_year` derivation (lines 94-101): first four characters of the
release-date string when parseable as an integer, else null. -/
def releaseYearOf (release_date : String) : Option Int :=
  if release_date ≠ "" ∧ 4 ≤ release_date.length then (release_date.take 4).toInt?
  else none

/-- Line 91: `artists[0].get('name', 'Unknown') if artists else 'Unknown'`. -/
def firstArtistName (artists : List RawArtist) : String :=
  match artists with
  | [] => "Unknown"
  | a :: _ => a.name.getD "Unknown"

/-- Body of the per-item loop (lines 80-115): skip a null track, a track with
a falsy id, or a track whose duration lies outside [30000, 600000]; otherwise
build the normalized record. -/
def processItem (playlist_id : String) (item : Option RawTrack) : Option TrackRec :=
  match item with
  | none => none
  | some track =>
    match track.id with
    | none => none
    | some tid =>
      if tid = "" then none
      else
        let duration := track.duration_ms.getD 0
        if duration < 30000 ∨ duration > 600000 then none
        else
          let artist_name := firstArtistName track.artists
          let album_name := (track.album.bind RawAlbum.name).getD "Unknown"
          let release_date := (track.album.bind RawAlbum.release_date).getD ""
          some {
            track_id := tid
            track_name := track.name
            track_name_clean := cleanString track.name
            artist_name := artist_name
            artist_name_clean := cleanString artist_name
            album_name := album_name
            release_year := releaseYearOf release_date
            duration_ms := duration
            popularity := track.popularity.getD 0
            explicit := track.explicit.getD false
            playlist_id := playlist_id }

/-! ## Paginated fetch loop: `fetch_playlist_tracks` (lines 62-126)

The external API is a page oracle mapping an offset to either an error (the
`except` branch) or the page's `items` list.  The `while True` loop is
embedded with a fuel parameter; every theorem about it either holds for all
fuel or assumes fuel at least the number of pages actually consumed.  The
result pairs the accumulated track list with the number of page calls issued. -/

def PAGE_LIMIT : Nat := 100

def fetchLoop (playlist_id : String)
    (pages : Nat → Except Unit (List (Option RawTrack))) :
    Nat → Nat → List TrackRec → List TrackRec × Nat
  | 0, _, acc => (acc, 0)
  | fuel + 1, offset, acc =>
    match pages offset with
    | Except.error _ => (acc, 1)
    | Except.ok items =>
      if items.isEmpty then (acc, 1)
      else
        let acc2 := acc ++ items.filterMap (processItem playlist_id)
        if items.length < PAGE_LIMIT then (acc2, 1)
        else
          let r := fetchLoop playlist_id pages fuel (offset + PAGE_LIMIT) acc2
          (r.1, r.2 + 1)

def fetchPlaylistTracks (playlist_id : String)
    (pages : Nat → Except Unit (List (Option RawTrack))) (fuel : Nat) :
    List TrackRec × Nat :=
  fetchLoop playlist_id pages fuel 0 []

/-- A representative valid raw child item. -/
def kItem : Option RawTrack :=
  some { id := some "t", name := "", artists := [], album := none,
         duration_ms := some 90000, popularity := none, explicit := none }

/-- Page oracle of a playlist with exactly `K` (valid) children: the page at
`offset` holds `min 100 (K - offset)` items. -/
def pagesForK (K : Nat) : Nat → Except Unit (List (Option RawTrack)) :=
  fun offset => Except.ok (List.replicate (min PAGE_LIMIT (K - offset)) kItem)

def fetchPlaylistTracksK (K : Nat) (fuel : Nat) : List TrackRec × Nat :=
  fetchPlaylistTracks "p" (pagesForK K) fuel

/-! ## Search: `search_playlists` (lines 34-60) -/

/-- Raw playlist object: all fields via `.get` with defaults; the item itself
may be null (`if not p`). -/
structure RawPlaylist where
  id : Option String
  name : Option String
  owner_display_name : Option String
  followers_total : Option Nat
  tracks_total : Option Nat
deriving DecidableEq

/-- Parent record appended to `playlists` (lines 48-55). -/
structure PlaylistRec where
  playlist_id : String
  playlist_name : String
  owner : String
  follower_count : Nat
  total_tracks : Nat
  category : String
deriving DecidableEq

/-- Per-item mapping in the search loop (lines 44-55): a null item or a falsy
id is skipped. -/
def processPlaylist (query : String) (item : Option RawPlaylist) : Option PlaylistRec :=
  match item with
  | none => none
  | some p =>
    match p.id with
    | none => none
    | some pid =>
      if pid = "" then none
      else
        some {
          playlist_id := pid
          playlist_name := p.name.getD "Unknown"
          owner := p.owner_display_name.getD "Unknown"
          follower_count := p.followers_total.getD 0
          total_tracks := p.tracks_total.getD 0
          category := query }

/-- `search_playlists`: the raw search result is an oracle value; the
`except` branch (lines 58-60) returns the empty list. -/
def searchPlaylists (query : String)
    (raw : Except Unit (List (Option RawPlaylist))) : List PlaylistRec :=
  match raw with
  | Except.error _ => []
  | Except.ok items => items.filterMap (processPlaylist query)

/-! ## Persistence gateway: `save_to_duckdb` (lines 128-169)

The store is the three DuckDB tables as row lists.  The schema file
(`sql/create_schema.sql`) is not part of `src/`; the key columns backing
`INSERT OR REPLACE` / `INSERT OR IGNORE` are therefore taken from the spec
(see the doc comments on the key functions). -/

structure PlaylistRow where
  playlist_id : String
  snapshot_date : String
  playlist_name : String
  owner : String
  follower_count : Nat
  total_tracks : Nat
  category : String
  data_source : String
deriving DecidableEq

structure TrackRow where
  track_id : String
  track_name : String
  track_name_clean : String
  artist_name : String
  artist_name_clean : String
  album_name : String
  release_year : Option Int
  duration_ms : Int
  popularity : Nat
  explicit : Bool
deriving DecidableEq

structure AssocRow where
  playlist_id : String
  track_id : String
  snapshot_date : String
deriving DecidableEq

structure Store where
  playlists : List PlaylistRow
  tracks : List TrackRow
  playlist_tracks : List AssocRow
deriving DecidableEq

def emptyStore : Store := ⟨[], [], []⟩

/-- `INSERT OR REPLACE` keyed by `key`: replace the existing row with the
same key, else append. -/
def upsert {α κ : Type} [DecidableEq κ] (key : α → κ) (t : List α) (r : α) : List α :=
  if key r ∈ t.map key then t.map (fun x => if key x = key r then r else x)
  else t ++ [r]

def upsertAll {α κ : Type} [DecidableEq κ] (key : α → κ) (t : List α) (rs : List α) : List α :=
  rs.foldl (upsert key) t

/-- `INSERT OR IGNORE` keyed by `key`: keep the table unchanged when a row
with the same key exists, else append. -/
def insertIgnore {α κ : Type} [DecidableEq κ] (key : α → κ) (t : List α) (r : α) : List α :=
  if key r ∈ t.map key then t else t ++ [r]

def insertIgnoreAll {α κ : Type} [DecidableEq κ] (key : α → κ) (t : List α) (rs : List α) : List α :=
  rs.foldl (insertIgnore key) t

/-- Modelled from the spec: `sql/create_schema.sql` is not under `src/`;
per spec §4.5 parent rows are "insert-or-replace keyed by parent ID". -/
def playlistKey (r : PlaylistRow) : String := r.playlist_id

/-- Modelled from the spec: `sql/create_schema.sql` is not under `src/`;
per spec §4.5 child rows are "insert-or-ignore keyed by child ID". -/
def trackKey (r : TrackRow) : String := r.track_id

/-- Modelled from the spec: `sql/create_schema.sql` is not under `src/`;
per spec §4.5 association rows are "insert-or-ignore keyed by
(parent ID, child ID, snapshot date)". -/
def assocKey (r : AssocRow) : String × String × String :=
  (r.playlist_id, r.track_id, r.snapshot_date)

/-- Playlist row written by the first `executemany` (lines 136-142);
`d` stands for `date.today()`. -/
def playlistRowOf (d : String) (p : PlaylistRec) : PlaylistRow :=
  ⟨p.playlist_id, d, p.playlist_name, p.owner, p.follower_count,
   p.total_tracks, p.category, "fast_collection"⟩

/-- Track row written by the second `executemany` (lines 146-154). -/
def trackRowOf (t : TrackRec) : TrackRow :=
  ⟨t.track_id, t.track_name, t.track_name_clean, t.artist_name,
   t.artist_name_clean, t.album_name, t.release_year, t.duration_ms,
   t.popularity, t.explicit⟩

/-- Association row written by the third `executemany` (lines 157-161). -/
def assocRowOf (d : String) (t : TrackRec) : AssocRow :=
  ⟨t.playlist_id, t.track_id, d⟩

/-- The three writes of one batch, applied in source order.  (The source
guards the track and association writes behind `if tracks:`, and the playlist
write behind `if playlists:`; a fold over the empty list is the identity, so
the guards are behaviour-preserving omissions.) -/
def saveWrites (d : String) (ps : List PlaylistRec) (ts : List TrackRec) (s : Store) : Store :=
  { playlists := upsertAll playlistKey s.playlists (ps.map (playlistRowOf d))
    tracks := insertIgnoreAll trackKey s.tracks (ts.map trackRowOf)
    playlist_tracks := insertIgnoreAll assocKey s.playlist_tracks (ts.map (assocRowOf d)) }

/-- Failure-injection point: which of the three `executemany` calls raises. -/
inductive FailAt
  | playlistsWrite
  | tracksWrite
  | assocsWrite
deriving DecidableEq

/-- `save_to_duckdb` with an injected failure point.  The writes accumulate
on the connection; `conn.commit()` (line 163) makes them durable, and the
`finally: conn.close()` (lines 168-169) discards uncommitted writes, so any
failure before the commit leaves the durable store as it was. -/
def saveToDuckdb (failAt : Option FailAt) (d : String)
    (ps : List PlaylistRec) (ts : List TrackRec) (s : Store) : Store :=
  let attempt : Except Unit Store :=
    if failAt = some FailAt.playlistsWrite then Except.error () else
    let s1 := { s with playlists := upsertAll playlistKey s.playlists (ps.map (playlistRowOf d)) }
    if failAt = some FailAt.tracksWrite then Except.error () else
    let s2 := { s1 with tracks := insertIgnoreAll trackKey s1.tracks (ts.map trackRowOf) }
    if failAt = some FailAt.assocsWrite then Except.error () else
    Except.ok { s2 with playlist_tracks := insertIgnoreAll assocKey s2.playlist_tracks (ts.map (assocRowOf d)) }
  match attempt with
  | Except.ok committed => committed
  | Except.error _ => s

/-! ## Orchestrator: `playlist_collect` (lines 171-243) -/

def BATCH_SIZE : Nat := 500

/-- The query list (lines 176-181). -/
def queries : List String :=
  ["workout", "gym", "fitness", "running", "cardio",
   "HIIT", "strength", "weights", "yoga", "cycling",
   "exercise", "training", "powerlifting", "crossfit",
   "spinning", "pilates", "aerobics", "zumba"]

/-- `all_playlists` after the search loop (lines 190-193): the concatenated
raw search results, in query order. -/
def allPlaylists (raw : String → Except Unit (List (Option RawPlaylist))) : List PlaylistRec :=
  (queries.map (fun q => searchPlaylists q (raw q))).flatten

/-- The Python dict comprehension `{p['playlist_id']: p for p in all_playlists}`
as an in-place-update / append association list (preserving dict insertion
order: first occurrence fixes the position, the last occurrence the value),
followed by `.values()`. -/
def dedupPlaylists (ps : List PlaylistRec) : List PlaylistRec :=
  (upsertAll (@Prod.fst String PlaylistRec) []
    (ps.map (fun p => (p.playlist_id, p)))).map Prod.snd

/-- `unique_playlists` (lines 196-197): deduplicate, then cap to 200. -/
def uniquePlaylists (ps : List PlaylistRec) : List PlaylistRec :=
  (dedupPlaylists ps).take 200

/-- One recorded invocation of the persistence gateway. -/
structure SaveCall where
  parents : List PlaylistRec
  tracks : List TrackRec
deriving DecidableEq

/-- The track-fetch loop (lines 203-224): extend the buffer with each
playlist's tracks, flush the whole buffer when it reaches `BATCH_SIZE`, and
flush any non-empty remainder after the loop.  Every flush passes
`all_playlists` (the `parents` argument) unchanged.  The progress read every
25 playlists (lines 215-220) only reads the store and is omitted. -/
def runBatches (parents : List PlaylistRec) (tracksOf : String → List TrackRec) :
    List PlaylistRec → List TrackRec → List SaveCall
  | [], buf => if buf.isEmpty then [] else [⟨parents, buf⟩]
  | pl :: rest, buf =>
    let buf2 := buf ++ tracksOf pl.playlist_id
    if BATCH_SIZE ≤ buf2.length then ⟨parents, buf2⟩ :: runBatches parents tracksOf rest []
    else runBatches parents tracksOf rest buf2

/-- The sequence of persistence-gateway invocations of one full run. -/
def playlistCollectCalls (raw : String → Except Unit (List (Option RawPlaylist)))
    (tracksOf : String → List TrackRec) : List SaveCall :=
  runBatches (allPlaylists raw) tracksOf (uniquePlaylists (allPlaylists raw)) []

/-- Effect of one full run on the store: the recorded save calls applied in
order (no write failures; `d` is the run's `date.today()`). -/
def runPipeline (raw : String → Except Unit (List (Option RawPlaylist)))
    (tracksOf : String → List TrackRec) (d : String) (s : Store) : Store :=
  (playlistCollectCalls raw tracksOf).foldl
    (fun s c => saveToDuckdb none d c.parents c.tracks s) s

/-! ## Configuration constants (data_strategy.py lines 42-43 and the task
decorators at spotify_ingestion.py lines 34 and 62) -/

def MAX_RETRIES : Nat := 5

def RETRY_BACKOFF_FACTOR : Nat := 2

/-- `@task(retries=3, retry_delay_seconds=10)` on `search_playlists`. -/
def searchPlaylistsTaskRetries : Nat := 3

/-- `@task(retries=3, retry_delay_seconds=10)` on `fetch_playlist_tracks`. -/
def fetchPlaylistTracksTaskRetries : Nat := 3

/-- The task-level delay before retry attempt `n`: a constant 10 seconds,
independent of the attempt number. -/
def taskRetryDelaySeconds (n : Nat) : Nat := 10

/-- What an exponential-backoff schedule with the configured factor would
prescribe for attempt `n` over base delay `base`. -/
def expBackoffDelaySeconds (base : Nat) (n : Nat) : Nat :=
  base * RETRY_BACKOFF_FACTOR ^ n

/-! ## Theorems -/

theorem processItem_duration_bounds {pid : String} {item : Option RawTrack} {t : TrackRec}
    (h : processItem pid item = some t) :
    30000 ≤ t.duration_ms ∧ t.duration_ms ≤ 600000 := by
  match item with
  | none => simp [processItem] at h
  | some track =>
    rcases htid : track.id with _ | tid
    · simp [processItem, htid] at h
    · by_cases he : tid = ""
      · simp [processItem, htid, he] at h
      · by_cases hdur : track.duration_ms.getD 0 < 30000 ∨ track.duration_ms.getD 0 > 600000
        · simp [processItem, htid, he, hdur] at h
        · rw [not_or] at hdur
          simp [processItem, htid, he, hdur.1, hdur.2] at h
          obtain rfl := h.symm
          exact ⟨Int.not_lt.mp hdur.1, Int.not_lt.mp hdur.2⟩

theorem fetchLoop_duration_bounds (pid : String)
    (pages : Nat → Except Unit (List (Option RawTrack))) :
    ∀ (fuel offset : Nat) (acc : List TrackRec),
    (∀ t ∈ acc, 30000 ≤ t.duration_ms ∧ t.duration_ms ≤ 600000) →
    ∀ t ∈ (fetchLoop pid pages fuel offset acc).1,
      30000 ≤ t.duration_ms ∧ t.duration_ms ≤ 600000 := by
  intro fuel
  induction fuel with
  | zero => intro offset acc hacc t ht; exact hacc t ht
  | succ n ih =>
    intro offset acc hacc t ht
    rw [fetchLoop] at ht
    split at ht
    · exact hacc t ht
    · rename_i items heq
      have haccext : ∀ u ∈ acc ++ items.filterMap (processItem pid),
          30000 ≤ u.duration_ms ∧ u.duration_ms ≤ 600000 := by
        intro u hu
        rcases List.mem_append.1 hu with hu | hu
        · exact hacc u hu
        · obtain ⟨item, _, hitem⟩ := List.mem_filterMap.1 hu
          exact processItem_duration_bounds hitem
      split at ht
      · exact hacc t ht
      · split at ht
        · exact haccext t ht
        · exact ih (offset + PAGE_LIMIT) (acc ++ items.filterMap (processItem pid)) haccext t ht

/-- A raw child record with the given duration and otherwise minimal valid
fields, used to exhibit the boundary behaviour of the duration filter. -/
def rawWithDuration (d : Int) : RawTrack :=
  { id := some "x", name := "n", artists := [], album := none,
    duration_ms := some d, popularity := none, explicit := none }

/-- Claim C1: every child record returned by `fetch_playlist_tracks` has
`30000 ≤ duration_ms ≤ 600000`; raw children with duration 29999 or 600001
are dropped by the per-item filter and never appear in the returned list. -/
theorem C1_duration_filter (pid : String)
    (pages : Nat → Except Unit (List (Option RawTrack))) (fuel : Nat) (t : TrackRec)
    (ht : t ∈ (fetchPlaylistTracks pid pages fuel).1) :
    (30000 ≤ t.duration_ms ∧ t.duration_ms ≤ 600000) ∧
    processItem pid (some (rawWithDuration 29999)) = none ∧
    processItem pid (some (rawWithDuration 600001)) = none := by
  refine ⟨?_, rfl, rfl⟩
  exact fetchLoop_duration_bounds pid pages fuel 0 [] (by intro u hu; cases hu) t ht

/-- Witness for C1 at a concrete one-page oracle. -/
theorem C1_witness :
    (30000 ≤ (⟨"x", "n", "n", "Unknown", "unknown", "Unknown", none, 90000, 0, false, "p1"⟩ : TrackRec).duration_ms ∧
      (⟨"x", "n", "n", "Unknown", "unknown", "Unknown", none, 90000, 0, false, "p1"⟩ : TrackRec).duration_ms ≤ 600000) ∧
    processItem "p1" (some (rawWithDuration 29999)) = none ∧
    processItem "p1" (some (rawWithDuration 600001)) = none :=
  C1_duration_filter "p1"
    (fun _ => Except.ok [some (rawWithDuration 90000)]) 1
    ⟨"x", "n", "n", "Unknown", "unknown", "Unknown", none, 90000, 0, false, "p1"⟩
    (by decide)

theorem fetchLoopK_calls : ∀ (fuel K offset : Nat) (acc : List TrackRec),
    (K - offset) / PAGE_LIMIT + 1 ≤ fuel →
    (fetchLoop "p" (pagesForK K) fuel offset acc).2 = (K - offset) / PAGE_LIMIT + 1 := by
  intro fuel
  induction fuel with
  | zero => intro K offset acc h; exact absurd h (Nat.not_succ_le_zero _)
  | succ n ih =>
    intro K offset acc h
    rw [fetchLoop]
    by_cases h0 : K - offset = 0
    · simp [pagesForK, h0]
    · by_cases h1 : K - offset < PAGE_LIMIT
      · have hmin : min PAGE_LIMIT (K - offset) = K - offset :=
          Nat.min_eq_right (Nat.le_of_lt h1)
        simp [pagesForK, hmin, h0, h1, Nat.div_eq_of_lt h1]
      · have hge : PAGE_LIMIT ≤ K - offset := Nat.le_of_not_lt h1
        have hmin : min PAGE_LIMIT (K - offset) = PAGE_LIMIT := Nat.min_eq_left hge
        have hdiv : (K - offset) / PAGE_LIMIT = (K - offset - PAGE_LIMIT) / PAGE_LIMIT + 1 :=
          Nat.div_eq_sub_div (by decide) hge
        have hsub : K - (offset + PAGE_LIMIT) = K - offset - PAGE_LIMIT := by omega
        have hbound : (K - (offset + PAGE_LIMIT)) / PAGE_LIMIT + 1 ≤ n := by
          rw [hsub]
          omega
        have hih := ih K (offset + PAGE_LIMIT)
          (acc ++ (List.replicate PAGE_LIMIT kItem).filterMap (processItem "p")) hbound
        rw [hsub] at hih
        have hlim : PAGE_LIMIT ≠ 0 := by decide
        simp only [pagesForK, hmin, List.isEmpty_eq_true, List.replicate_eq_nil_iff, hlim,
          if_false, List.length_replicate, Nat.lt_irrefl]
        rw [hih, hdiv]

/-- Claim C3 counterexample: for a parent with exactly 100 children and page
size 100 the code issues 2 page calls (the second returns an empty page),
while ceil(100/100) = 1. -/
theorem C3_counterexample :
    (fetchPlaylistTracksK 100 3).2 = 2 ∧ (100 + PAGE_LIMIT - 1) / PAGE_LIMIT = 1 ∧
    (fetchPlaylistTracksK 100 3).2 ≠ (100 + PAGE_LIMIT - 1) / PAGE_LIMIT := by
  refine ⟨?_, by decide, ?_⟩
  · have h := fetchLoopK_calls 3 100 0 [] (by decide)
    simpa [fetchPlaylistTracksK, fetchPlaylistTracks] using h
  · have h := fetchLoopK_calls 3 100 0 [] (by decide)
    simp only [fetchPlaylistTracksK, fetchPlaylistTracks]
    rw [h]
    decide

/-- Claim C3 (amended): for a parent with `K` total children and page size
`P = 100`, `fetch_playlist_tracks` issues exactly `K / P + 1` page calls and
terminates (with enough fuel the loop finishes; `K / P + 1` equals
`ceil(K/P)` when `P` does not divide `K`, and is one extra trailing
empty-page call when `K` is a multiple of `P`); for a parent with zero
children it issues exactly one call and returns an empty list. -/
theorem C3_pagination_calls (K fuel : Nat) (h : K / PAGE_LIMIT + 1 ≤ fuel) :
    (fetchPlaylistTracksK K fuel).2 = K / PAGE_LIMIT + 1 ∧
    (K = 0 → (fetchPlaylistTracksK K fuel).1 = [] ∧ (fetchPlaylistTracksK K fuel).2 = 1) := by
  have hcalls := fetchLoopK_calls fuel K 0 [] (by simpa using h)
  constructor
  · simpa [fetchPlaylistTracksK, fetchPlaylistTracks] using hcalls
  · rintro rfl
    cases fuel with
    | zero => exact absurd h (Nat.not_succ_le_zero _)
    | succ m => exact ⟨rfl, rfl⟩

/-- Witness for C3 (amended) at `K = 250`, fuel 5. -/
theorem C3_witness :
    250 / PAGE_LIMIT + 1 ≤ 5 ∧ (fetchPlaylistTracksK 250 5).2 = 250 / PAGE_LIMIT + 1 :=
  ⟨by decide, (C3_pagination_calls 250 5 (by decide)).1⟩

/-- Claim C6: a catalog call that ultimately fails never propagates: a failed
search yields the empty parent list for that query, and a failed page fetch
terminates pagination, returning exactly the records accumulated from the
earlier pages. -/
theorem C6_failure_degrades (q : String) (e : Unit) (pid : String)
    (pages : Nat → Except Unit (List (Option RawTrack)))
    (fuel offset : Nat) (acc : List TrackRec)
    (hfail : pages offset = Except.error ()) :
    searchPlaylists q (Except.error e) = [] ∧
    fetchLoop pid pages (fuel + 1) offset acc = (acc, 1) := by
  constructor
  · rfl
  · rw [fetchLoop, hfail]

/-- Witness for C6: a page oracle that always fails, with one record already
accumulated from earlier pages. -/
theorem C6_witness :
    searchPlaylists "workout" (Except.error ()) = [] ∧
    fetchLoop "p1" (fun _ => Except.error ()) 1 0
      [⟨"x", "n", "n", "Unknown", "unknown", "Unknown", none, 90000, 0, false, "p1"⟩] =
      ([⟨"x", "n", "n", "Unknown", "unknown", "Unknown", none, 90000, 0, false, "p1"⟩], 1) :=
  C6_failure_degrades "workout" () "p1" (fun _ => Except.error ()) 0 0
    [⟨"x", "n", "n", "Unknown", "unknown", "Unknown", none, 90000, 0, false, "p1"⟩] rfl

/-- Claim C4 counterexample: the task decorators wrap both catalog calls with
3 retries and a fixed 10-second delay, not `MAX_RETRIES = 5` attempts with
exponential factor-2 backoff. -/
theorem C4_counterexample :
    searchPlaylistsTaskRetries ≠ MAX_RETRIES ∧
    fetchPlaylistTracksTaskRetries ≠ MAX_RETRIES ∧
    taskRetryDelaySeconds 2 ≠ RETRY_BACKOFF_FACTOR * taskRetryDelaySeconds 1 := by
  refine ⟨by decide, by decide, by decide⟩

/-- Claim C4 (amended): both fallible catalog calls are wrapped at the task
level with 3 retries and a constant 10-second delay between attempts; the
configuration module declares `MAX_RETRIES = 5` and
`RETRY_BACKOFF_FACTOR = 2` (an exponential schedule would multiply the delay
by the factor each attempt), but the tasks do not use them. -/
theorem C4_retry_config :
    searchPlaylistsTaskRetries = 3 ∧ fetchPlaylistTracksTaskRetries = 3 ∧
    (∀ n, taskRetryDelaySeconds n = 10) ∧
    MAX_RETRIES = 5 ∧ RETRY_BACKOFF_FACTOR = 2 ∧
    (∀ base n, expBackoffDelaySeconds base (n + 1) =
      RETRY_BACKOFF_FACTOR * expBackoffDelaySeconds base n) := by
  refine ⟨rfl, rfl, fun _ => rfl, rfl, rfl, fun base n => ?_⟩
  simp only [expBackoffDelaySeconds, pow_succ]
  ring

/-- Claim C5: the three writes of one batch commit as a single transaction:
a failure at any of the three writes leaves the store exactly as it was
before the batch, a fully successful batch makes all three writes visible,
and a failing batch after a sequence of committed batches leaves exactly the
earlier batches' effect. -/
theorem C5_batch_atomicity (w : FailAt) (d : String)
    (ps : List PlaylistRec) (ts : List TrackRec) (s : Store)
    (earlier : List SaveCall) (c : SaveCall) :
    saveToDuckdb (some w) d ps ts s = s ∧
    saveToDuckdb none d ps ts s = saveWrites d ps ts s ∧
    saveToDuckdb (some w) d c.parents c.tracks
      (earlier.foldl (fun st b => saveToDuckdb none d b.parents b.tracks st) s) =
      earlier.foldl (fun st b => saveToDuckdb none d b.parents b.tracks st) s := by
  refine ⟨?_, rfl, ?_⟩
  · cases w <;> rfl
  · cases w <;> rfl

theorem runBatches_parents (parents : List PlaylistRec) (tracksOf : String → List TrackRec) :
    ∀ (queue : List PlaylistRec) (buf : List TrackRec) (c : SaveCall),
    c ∈ runBatches parents tracksOf queue buf → c.parents = parents := by
  intro queue
  induction queue with
  | nil =>
    intro buf c hc
    rw [runBatches] at hc
    split at hc
    · cases hc
    · obtain rfl := List.mem_singleton.mp hc
      rfl
  | cons pl rest ih =>
    intro buf c hc
    rw [runBatches] at hc
    split at hc
    · rcases List.mem_cons.mp hc with rfl | hc2
      · rfl
      · exact ih [] c hc2
    · exact ih _ c hc

/-- Claim C9: every invocation of the persistence gateway (threshold flush and
final remainder flush) passes the full accumulated raw search-result list as
the parent list: not deduplicated and not capped at 200. -/
theorem C9_full_parent_list (raw : String → Except Unit (List (Option RawPlaylist)))
    (tracksOf : String → List TrackRec) (c : SaveCall)
    (hc : c ∈ playlistCollectCalls raw tracksOf) :
    c.parents = allPlaylists raw :=
  runBatches_parents (allPlaylists raw) tracksOf (uniquePlaylists (allPlaylists raw)) [] c hc

/-- Concrete search oracle: the query `"workout"` finds one valid playlist,
every other query finds nothing. -/
def rawPlaylistExample : RawPlaylist :=
  ⟨some "p1", some "Power Hour", some "dj", some 10, some 1⟩

def rawSearchExample : String → Except Unit (List (Option RawPlaylist)) :=
  fun q =>
    if q = "workout" then Except.ok [some rawPlaylistExample]
    else Except.ok []

/-- The parent record produced by `rawSearchExample` for query `"workout"`. -/
def playlistRecExample : PlaylistRec := ⟨"p1", "Power Hour", "dj", 10, 1, "workout"⟩

/-- A concrete child record belonging to playlist `p1`. -/
def trackRecExample : TrackRec :=
  ⟨"t1", "Song", "song", "Artist", "artist", "Album", none, 90000, 10, false, "p1"⟩

/-- Concrete track oracle: playlist `p1` has one track, all others none. -/
def tracksOfExample : String → List TrackRec :=
  fun pid => if pid = "p1" then [trackRecExample] else []

/-- Witness for C9 on the concrete oracles: the single (remainder) flush
passes the full search-result list. -/
theorem C9_witness :
    (⟨[playlistRecExample], [trackRecExample]⟩ : SaveCall).parents =
      allPlaylists rawSearchExample :=
  C9_full_parent_list rawSearchExample tracksOfExample
    ⟨[playlistRecExample], [trackRecExample]⟩ (by decide)

theorem runBatches_no_tracks (parents : List PlaylistRec) (tracksOf : String → List TrackRec) :
    ∀ queue : List PlaylistRec, (∀ pl ∈ queue, tracksOf pl.playlist_id = []) →
    runBatches parents tracksOf queue [] = [] := by
  intro queue
  induction queue with
  | nil => intro _; rfl
  | cons pl rest ih =>
    intro h
    rw [runBatches]
    have h1 : tracksOf pl.playlist_id = [] := h pl (List.mem_cons_self pl rest)
    simp only [h1, List.append_nil]
    rw [if_neg (by decide)]
    exact ih (fun q hq => h q (List.mem_cons_of_mem pl hq))

/-- Claim C10: when every processed parent yields an empty filtered track
list, the persistence gateway is never invoked and the store is left
unchanged, even though searches discovered playlists. -/
theorem C10_no_tracks_no_writes (raw : String → Except Unit (List (Option RawPlaylist)))
    (tracksOf : String → List TrackRec) (d : String) (s : Store)
    (h : ∀ pl ∈ uniquePlaylists (allPlaylists raw), tracksOf pl.playlist_id = []) :
    playlistCollectCalls raw tracksOf = [] ∧ runPipeline raw tracksOf d s = s := by
  have hcalls : playlistCollectCalls raw tracksOf = [] :=
    runBatches_no_tracks (allPlaylists raw) tracksOf (uniquePlaylists (allPlaylists raw)) h
  refine ⟨hcalls, ?_⟩
  rw [runPipeline, hcalls]
  rfl

/-- Witness for C10: the concrete search oracle discovers a playlist with a
valid id, yet with no tracks anywhere the store stays untouched. -/
theorem C10_witness :
    playlistCollectCalls rawSearchExample (fun _ => ([] : List TrackRec)) = [] ∧
    runPipeline rawSearchExample (fun _ => ([] : List TrackRec)) "2024-06-01" emptyStore =
      emptyStore :=
  C10_no_tracks_no_writes rawSearchExample (fun _ => ([] : List TrackRec)) "2024-06-01"
    emptyStore (by decide)

/-! ### Generic lemmas about insert-or-ignore tables -/

section TableLemmas

variable {α κ : Type} [DecidableEq κ] (key : α → κ)

theorem insertIgnore_of_mem {t : List α} {r : α} (h : key r ∈ t.map key) :
    insertIgnore key t r = t := by
  simp [insertIgnore, h]

theorem keys_sub_insertIgnore (t : List α) (r : α) (k : κ) (hk : k ∈ t.map key) :
    k ∈ (insertIgnore key t r).map key := by
  unfold insertIgnore
  split
  · exact hk
  · rw [List.map_append]
    exact List.mem_append_left _ hk

theorem key_mem_insertIgnore (t : List α) (r : α) :
    key r ∈ (insertIgnore key t r).map key := by
  unfold insertIgnore
  split
  · next h => exact h
  · rw [List.map_append]
    exact List.mem_append_right _ (by simp)

theorem keys_sub_insertIgnoreAll (t : List α) (rs : List α) (k : κ) (hk : k ∈ t.map key) :
    k ∈ (insertIgnoreAll key t rs).map key := by
  induction rs generalizing t with
  | nil => exact hk
  | cons r rs ih => exact ih (insertIgnore key t r) (keys_sub_insertIgnore key t r k hk)

theorem mem_keys_insertIgnoreAll_of_mem (t : List α) (rs : List α) (r : α) (hr : r ∈ rs) :
    key r ∈ (insertIgnoreAll key t rs).map key := by
  induction rs generalizing t with
  | nil => cases hr
  | cons a rs ih =>
    rcases List.mem_cons.mp hr with rfl | hr2
    · exact keys_sub_insertIgnoreAll key (insertIgnore key t r) rs (key r)
        (key_mem_insertIgnore key t r)
    · exact ih (insertIgnore key t a) hr2

theorem insertIgnoreAll_of_all_mem (t : List α) (rs : List α)
    (h : ∀ r ∈ rs, key r ∈ t.map key) : insertIgnoreAll key t rs = t := by
  induction rs with
  | nil => rfl
  | cons a rs ih =>
    show insertIgnoreAll key (insertIgnore key t a) rs = t
    rw [insertIgnore_of_mem key (h a (List.mem_cons_self a rs))]
    exact ih (fun r hr => h r (List.mem_cons_of_mem a hr))

theorem insertIgnoreAll_idem (t : List α) (rs : List α) :
    insertIgnoreAll key (insertIgnoreAll key t rs) rs = insertIgnoreAll key t rs :=
  insertIgnoreAll_of_all_mem key _ rs
    (fun r hr => mem_keys_insertIgnoreAll_of_mem key t rs r hr)

theorem insertIgnoreAll_append (t : List α) (l1 l2 : List α) :
    insertIgnoreAll key t (l1 ++ l2) = insertIgnoreAll key (insertIgnoreAll key t l1) l2 := by
  simp [insertIgnoreAll, List.foldl_append]

theorem mem_insertIgnore_sub {t : List α} {r x : α} (hx : x ∈ insertIgnore key t r) :
    x ∈ t ∨ x = r := by
  unfold insertIgnore at hx
  split at hx
  · exact Or.inl hx
  · rcases List.mem_append.mp hx with hx | hx
    · exact Or.inl hx
    · exact Or.inr (List.mem_singleton.mp hx)

theorem mem_insertIgnoreAll_sub {t : List α} {rs : List α} {x : α}
    (hx : x ∈ insertIgnoreAll key t rs) : x ∈ t ∨ x ∈ rs := by
  induction rs generalizing t with
  | nil => exact Or.inl hx
  | cons a rs ih =>
    rcases ih hx with hx2 | hx2
    · rcases mem_insertIgnore_sub key hx2 with hx3 | rfl
      · exact Or.inl hx3
      · exact Or.inr (List.mem_cons_self x rs)
    · exact Or.inr (List.mem_cons_of_mem a hx2)

theorem nodup_keys_insertIgnore (t : List α) (r : α) (h : (t.map key).Nodup) :
    ((insertIgnore key t r).map key).Nodup := by
  unfold insertIgnore
  split
  · exact h
  · next hmem =>
    rw [List.map_append]
    refine List.Nodup.append h (by simp) ?_
    intro a ha hb
    simp only [List.map_cons, List.map_nil, List.mem_singleton] at hb
    exact hmem (hb ▸ ha)

theorem nodup_keys_insertIgnoreAll (t : List α) (rs : List α) (h : (t.map key).Nodup) :
    ((insertIgnoreAll key t rs).map key).Nodup := by
  induction rs generalizing t with
  | nil => exact h
  | cons a rs ih => exact ih (insertIgnore key t a) (nodup_keys_insertIgnore key t a h)

theorem keys_insertIgnoreAll_from_nil (rs : List α) (k : κ) :
    k ∈ (insertIgnoreAll key [] rs).map key ↔ k ∈ rs.map key := by
  constructor
  · intro hk
    obtain ⟨x, hx, rfl⟩ := List.mem_map.mp hk
    rcases mem_insertIgnoreAll_sub key hx with hx2 | hx2
    · cases hx2
    · exact List.mem_map.mpr ⟨x, hx2, rfl⟩
  · intro hk
    obtain ⟨x, hx, rfl⟩ := List.mem_map.mp hk
    exact mem_keys_insertIgnoreAll_of_mem key [] rs x hx

theorem countP_key_of_nodup (t : List α) (h : (t.map key).Nodup) (k : κ) :
    t.countP (fun x => decide (key x = k)) = if k ∈ t.map key then 1 else 0 := by
  have h1 : t.countP (fun x => decide (key x = k)) = (t.map key).count k := by
    rw [List.count_eq_countP, List.countP_map]
    rfl
  rw [h1]
  by_cases hk : k ∈ t.map key
  · rw [if_pos hk]
    exact List.count_eq_one_of_mem h hk
  · rw [if_neg hk]
    exact List.count_eq_zero_of_not_mem hk

end TableLemmas

/-! ### Effect of a run on each table -/

theorem saveToDuckdb_none_eq (d : String) (ps : List PlaylistRec) (ts : List TrackRec)
    (s : Store) : saveToDuckdb none d ps ts s = saveWrites d ps ts s := rfl

/-- The rows the run's save calls feed to the `tracks` table. -/
def allTrackRows (calls : List SaveCall) : List TrackRow :=
  (calls.map (fun c => c.tracks.map trackRowOf)).flatten

/-- The rows the run's save calls feed to the `playlist_tracks` table. -/
def allAssocRows (d : String) (calls : List SaveCall) : List AssocRow :=
  (calls.map (fun c => c.tracks.map (assocRowOf d))).flatten

theorem applyCalls_tracks (d : String) : ∀ (calls : List SaveCall) (s : Store),
    (calls.foldl (fun st c => saveToDuckdb none d c.parents c.tracks st) s).tracks =
      insertIgnoreAll trackKey s.tracks (allTrackRows calls) := by
  intro calls
  induction calls with
  | nil => intro s; rfl
  | cons c calls ih =>
    intro s
    show (calls.foldl _ (saveToDuckdb none d c.parents c.tracks s)).tracks = _
    rw [ih]
    show insertIgnoreAll trackKey
      (insertIgnoreAll trackKey s.tracks (c.tracks.map trackRowOf)) (allTrackRows calls) = _
    rw [show allTrackRows (c :: calls) = c.tracks.map trackRowOf ++ allTrackRows calls from rfl]
    rw [insertIgnoreAll_append]

theorem applyCalls_assocs (d : String) : ∀ (calls : List SaveCall) (s : Store),
    (calls.foldl (fun st c => saveToDuckdb none d c.parents c.tracks st) s).playlist_tracks =
      insertIgnoreAll assocKey s.playlist_tracks (allAssocRows d calls) := by
  intro calls
  induction calls with
  | nil => intro s; rfl
  | cons c calls ih =>
    intro s
    show (calls.foldl _ (saveToDuckdb none d c.parents c.tracks s)).playlist_tracks = _
    rw [ih]
    show insertIgnoreAll assocKey
      (insertIgnoreAll assocKey s.playlist_tracks (c.tracks.map (assocRowOf d)))
      (allAssocRows d calls) = _
    rw [show allAssocRows d (c :: calls) =
      c.tracks.map (assocRowOf d) ++ allAssocRows d calls from rfl]
    rw [insertIgnoreAll_append]

theorem runPipeline_tracks (raw : String → Except Unit (List (Option RawPlaylist)))
    (tracksOf : String → List TrackRec) (d : String) (s : Store) :
    (runPipeline raw tracksOf d s).tracks =
      insertIgnoreAll trackKey s.tracks (allTrackRows (playlistCollectCalls raw tracksOf)) :=
  applyCalls_tracks d (playlistCollectCalls raw tracksOf) s

theorem runPipeline_assocs (raw : String → Except Unit (List (Option RawPlaylist)))
    (tracksOf : String → List TrackRec) (d : String) (s : Store) :
    (runPipeline raw tracksOf d s).playlist_tracks =
      insertIgnoreAll assocKey s.playlist_tracks
        (allAssocRows d (playlistCollectCalls raw tracksOf)) :=
  applyCalls_assocs d (playlistCollectCalls raw tracksOf) s

/-- Claim C2: running the full pipeline twice against the same oracles and
the same date leaves the `tracks` table exactly as after the first run
(same row count, attributes unchanged: first write wins) and likewise the
`playlist_tracks` table; moreover after the first run `playlist_tracks`
holds exactly one row per observed (playlist_id, track_id, snapshot_date)
triple and no row for unobserved triples, no matter how many times a triple
was observed. -/
theorem C2_idempotent_runs (raw : String → Except Unit (List (Option RawPlaylist)))
    (tracksOf : String → List TrackRec) (d : String) :
    (runPipeline raw tracksOf d (runPipeline raw tracksOf d emptyStore)).tracks =
      (runPipeline raw tracksOf d emptyStore).tracks ∧
    (runPipeline raw tracksOf d (runPipeline raw tracksOf d emptyStore)).playlist_tracks =
      (runPipeline raw tracksOf d emptyStore).playlist_tracks ∧
    (∀ k : String × String × String,
      (runPipeline raw tracksOf d emptyStore).playlist_tracks.countP
          (fun r => decide (assocKey r = k)) =
        if k ∈ (allAssocRows d (playlistCollectCalls raw tracksOf)).map assocKey
        then 1 else 0) := by
  refine ⟨?_, ?_, ?_⟩
  · rw [runPipeline_tracks, runPipeline_tracks]
    exact insertIgnoreAll_idem trackKey _ _
  · rw [runPipeline_assocs, runPipeline_assocs]
    exact insertIgnoreAll_idem assocKey _ _
  · intro k
    rw [runPipeline_assocs]
    show (insertIgnoreAll assocKey ([] : List AssocRow)
      (allAssocRows d (playlistCollectCalls raw tracksOf))).countP
        (fun r => decide (assocKey r = k)) = _
    have hnodup : ((insertIgnoreAll assocKey ([] : List AssocRow)
        (allAssocRows d (playlistCollectCalls raw tracksOf))).map assocKey).Nodup :=
      nodup_keys_insertIgnoreAll assocKey [] _ (by simp)
    rw [countP_key_of_nodup assocKey _ hnodup k]
    congr 1
    simp only [eq_iff_iff]
    exact keys_insertIgnoreAll_from_nil assocKey _ k

/-! ### Generic lemmas about insert-or-replace tables and the dict model -/

section UpsertLemmas

variable {α κ : Type} [DecidableEq κ] (key : α → κ)

theorem keys_map_update (t : List α) (r : α) :
    (t.map (fun x => if key x = key r then r else x)).map key = t.map key := by
  rw [List.map_map]
  apply List.map_congr_left
  intro x _
  show key (if key x = key r then r else x) = key x
  by_cases hk : key x = key r
  · rw [if_pos hk, hk]
  · rw [if_neg hk]

theorem nodup_keys_upsert (t : List α) (r : α) (h : (t.map key).Nodup) :
    ((upsert key t r).map key).Nodup := by
  unfold upsert
  split
  · rw [keys_map_update]
    exact h
  · next hmem =>
    rw [List.map_append]
    refine List.Nodup.append h (by simp) ?_
    intro a ha hb
    simp only [List.map_cons, List.map_nil, List.mem_singleton] at hb
    exact hmem (hb ▸ ha)

theorem nodup_keys_upsertAll (t : List α) (rs : List α) (h : (t.map key).Nodup) :
    ((upsertAll key t rs).map key).Nodup := by
  induction rs generalizing t with
  | nil => exact h
  | cons a rs ih => exact ih (upsert key t a) (nodup_keys_upsert key t a h)

theorem mem_upsert_sub {t : List α} {r x : α} (hx : x ∈ upsert key t r) :
    x ∈ t ∨ x = r := by
  unfold upsert at hx
  split at hx
  · obtain ⟨y, hy, hyx⟩ := List.mem_map.mp hx
    by_cases hk : key y = key r
    · rw [if_pos hk] at hyx
      exact Or.inr hyx.symm
    · rw [if_neg hk] at hyx
      exact Or.inl (hyx ▸ hy)
  · rcases List.mem_append.mp hx with hx | hx
    · exact Or.inl hx
    · exact Or.inr (List.mem_singleton.mp hx)

theorem mem_upsertAll_sub {t : List α} {rs : List α} {x : α}
    (hx : x ∈ upsertAll key t rs) : x ∈ t ∨ x ∈ rs := by
  induction rs generalizing t with
  | nil => exact Or.inl hx
  | cons a rs ih =>
    rcases ih hx with hx2 | hx2
    · rcases mem_upsert_sub key hx2 with hx3 | rfl
      · exact Or.inl hx3
      · exact Or.inr (List.mem_cons_self x rs)
    · exact Or.inr (List.mem_cons_of_mem a hx2)

theorem key_mem_upsert (t : List α) (r : α) : key r ∈ (upsert key t r).map key := by
  unfold upsert
  split
  · next hmem =>
    rw [keys_map_update]
    exact hmem
  · rw [List.map_append]
    exact List.mem_append_right _ (by simp)

theorem keys_sub_upsert (t : List α) (r : α) (k : κ) (hk : k ∈ t.map key) :
    k ∈ (upsert key t r).map key := by
  unfold upsert
  split
  · rw [keys_map_update]
    exact hk
  · rw [List.map_append]
    exact List.mem_append_left _ hk

theorem keys_sub_upsertAll (t : List α) (rs : List α) (k : κ) (hk : k ∈ t.map key) :
    k ∈ (upsertAll key t rs).map key := by
  induction rs generalizing t with
  | nil => exact hk
  | cons a rs ih => exact ih (upsert key t a) (keys_sub_upsert key t a k hk)

theorem mem_keys_upsertAll_of_mem (t : List α) (rs : List α) (r : α) (hr : r ∈ rs) :
    key r ∈ (upsertAll key t rs).map key := by
  induction rs generalizing t with
  | nil => cases hr
  | cons a rs ih =>
    rcases List.mem_cons.mp hr with rfl | hr2
    · exact keys_sub_upsertAll key (upsert key t r) rs (key r) (key_mem_upsert key t r)
    · exact ih (upsert key t a) hr2

theorem keys_upsertAll_from_nil (rs : List α) (k : κ) :
    k ∈ (upsertAll key [] rs).map key ↔ k ∈ rs.map key := by
  constructor
  · intro hk
    obtain ⟨x, hx, rfl⟩ := List.mem_map.mp hk
    rcases mem_upsertAll_sub key hx with hx2 | hx2
    · cases hx2
    · exact List.mem_map.mpr ⟨x, hx2, rfl⟩
  · intro hk
    obtain ⟨x, hx, rfl⟩ := List.mem_map.mp hk
    exact mem_keys_upsertAll_of_mem key [] rs x hx

theorem find?_update_self (t : List α) (r : α) (hmem : key r ∈ t.map key) :
    (t.map (fun x => if key x = key r then r else x)).find?
      (fun x => decide (key x = key r)) = some r := by
  induction t with
  | nil => cases hmem
  | cons a t ih =>
    rw [List.map_cons]
    by_cases hk : key a = key r
    · rw [if_pos hk, List.find?_cons_of_pos _ (by simp)]
    · rw [if_neg hk, List.find?_cons_of_neg _ (by simp [hk])]
      apply ih
      rw [List.map_cons] at hmem
      rcases List.mem_cons.mp hmem with h1 | h1
      · exact absurd h1.symm hk
      · exact h1

theorem find?_update_other (t : List α) (r : α) (k : κ) (hk : k ≠ key r) :
    (t.map (fun x => if key x = key r then r else x)).find? (fun x => decide (key x = k)) =
      t.find? (fun x => decide (key x = k)) := by
  induction t with
  | nil => rfl
  | cons a t ih =>
    rw [List.map_cons]
    by_cases ha : key a = key r
    · rw [if_pos ha,
        List.find?_cons_of_neg _ (by simp only [decide_eq_true_eq]; exact fun h => hk h.symm),
        List.find?_cons_of_neg _ (by
          simp only [decide_eq_true_eq, ha]
          exact fun h => hk h.symm)]
      exact ih
    · rw [if_neg ha]
      by_cases hak : key a = k
      · rw [List.find?_cons_of_pos _ (by simp [hak]), List.find?_cons_of_pos _ (by simp [hak])]
      · rw [List.find?_cons_of_neg _ (by simp [hak]), List.find?_cons_of_neg _ (by simp [hak])]
        exact ih

theorem find?_upsert_self (t : List α) (r : α) :
    (upsert key t r).find? (fun x => decide (key x = key r)) = some r := by
  unfold upsert
  split
  · next hmem => exact find?_update_self key t r hmem
  · next hmem =>
    rw [List.find?_append]
    have h0 : t.find? (fun x => decide (key x = key r)) = none :=
      List.find?_eq_none.mpr (fun x hx hpx =>
        hmem (List.mem_map.mpr ⟨x, hx, by simpa using hpx⟩))
    rw [h0]
    simp

theorem find?_upsert_other (t : List α) (r : α) (k : κ) (hk : k ≠ key r) :
    (upsert key t r).find? (fun x => decide (key x = k)) =
      t.find? (fun x => decide (key x = k)) := by
  unfold upsert
  split
  · exact find?_update_other key t r k hk
  · rw [List.find?_append]
    have h1 : List.find? (fun x => decide (key x = k)) [r] = none := by
      rw [List.find?_cons_of_neg _ (by simp only [decide_eq_true_eq]; exact fun h => hk h.symm)]
      rfl
    rw [h1]
    cases t.find? (fun x => decide (key x = k)) <;> rfl

theorem upsertAll_append_one (t : List α) (l : List α) (r : α) :
    upsertAll key t (l ++ [r]) = upsert key (upsertAll key t l) r := by
  simp [upsertAll, List.foldl_append]

theorem find?_upsertAll_nil (rs : List α) (k : κ) :
    (upsertAll key [] rs).find? (fun x => decide (key x = k)) =
      (rs.filter (fun r => decide (key r = k))).getLast? := by
  induction rs using List.reverseRecOn with
  | nil => rfl
  | append_singleton l r ih =>
    rw [upsertAll_append_one]
    by_cases hk : k = key r
    · subst hk
      rw [find?_upsert_self, List.filter_append]
      have h2 : List.filter (fun x => decide (key x = key r)) [r] = [r] := by simp
      rw [h2, List.getLast?_concat]
    · rw [find?_upsert_other key _ r k hk, ih, List.filter_append]
      have h2 : List.filter (fun x => decide (key x = k)) [r] = [] := by
        simp only [List.filter_cons, decide_eq_true_eq]
        rw [if_neg (fun h => hk h.symm)]
        rfl
      rw [h2, List.append_nil]

theorem find?_eq_of_mem_nodup {t : List α} {e : α} (h : (t.map key).Nodup) (he : e ∈ t) :
    t.find? (fun x => decide (key x = key e)) = some e := by
  induction t with
  | nil => cases he
  | cons a t ih =>
    rw [List.map_cons] at h
    have h1 := List.nodup_cons.mp h
    rcases List.mem_cons.mp he with rfl | he2
    · rw [List.find?_cons_of_pos _ (by simp)]
    · by_cases hk : key a = key e
      · exact absurd (by rw [hk]; exact List.mem_map.mpr ⟨e, he2, rfl⟩) h1.1
      · rw [List.find?_cons_of_neg _ (by simp [hk])]
        exact ih h1.2 he2

end UpsertLemmas

/-! ### Deduplication of parents (C8) -/

/-- Claim C8: deduplicating the accumulated search results by playlist ID
yields exactly one entry per distinct ID (and none for absent IDs), each
entry being the last occurrence of that ID in iteration order
(last-write-wins, so its `category` is the query that last produced it),
and the result is then truncated to at most 200 parents. -/
theorem C8_dedup_last_wins (ps : List PlaylistRec) :
    (∀ k : String, (dedupPlaylists ps).countP (fun q => decide (q.playlist_id = k)) =
      if ps.any (fun q => decide (q.playlist_id = k)) then 1 else 0) ∧
    (∀ p ∈ dedupPlaylists ps,
      (ps.filter (fun q => decide (q.playlist_id = p.playlist_id))).getLast? = some p) ∧
    (uniquePlaylists ps).length ≤ 200 ∧
    uniquePlaylists ps = (dedupPlaylists ps).take 200 := by
  have hpairs : ∀ e ∈ upsertAll (@Prod.fst String PlaylistRec) []
      (ps.map (fun p => (p.playlist_id, p))), e.2.playlist_id = e.1 := by
    intro e he
    rcases mem_upsertAll_sub Prod.fst he with h1 | h1
    · cases h1
    · obtain ⟨p, _, rfl⟩ := List.mem_map.mp h1
      rfl
  have hnodup : ((upsertAll (@Prod.fst String PlaylistRec) []
      (ps.map (fun p => (p.playlist_id, p)))).map Prod.fst).Nodup :=
    nodup_keys_upsertAll Prod.fst [] _ (by simp)
  refine ⟨?_, ?_, ?_, rfl⟩
  · intro k
    show (List.map Prod.snd _).countP _ = _
    rw [List.countP_map]
    have hcong : (upsertAll (@Prod.fst String PlaylistRec) []
        (ps.map (fun p => (p.playlist_id, p)))).countP
          ((fun q => decide (q.playlist_id = k)) ∘ Prod.snd) =
        (upsertAll (@Prod.fst String PlaylistRec) []
        (ps.map (fun p => (p.playlist_id, p)))).countP
          (fun e => decide (e.1 = k)) := by
      apply List.countP_congr
      intro e he
      simp only [Function.comp_apply, decide_eq_true_eq, hpairs e he]
    rw [hcong, countP_key_of_nodup Prod.fst _ hnodup k]
    have hiff : k ∈ (upsertAll (@Prod.fst String PlaylistRec) []
        (ps.map (fun p => (p.playlist_id, p)))).map Prod.fst ↔
        (ps.any (fun q => decide (q.playlist_id = k)) = true) := by
      rw [keys_upsertAll_from_nil, List.map_map]
      constructor
      · intro hk
        obtain ⟨q, hq, hqk⟩ := List.mem_map.mp hk
        exact List.any_eq_true.mpr ⟨q, hq, by simpa using hqk⟩
      · intro ha
        obtain ⟨q, hq, hqk⟩ := List.any_eq_true.mp ha
        exact List.mem_map.mpr ⟨q, hq, by simpa using hqk⟩
    exact if_congr hiff rfl rfl
  · intro p hp
    obtain ⟨e, he, hep⟩ := List.mem_map.mp hp
    have hkey : e.1 = p.playlist_id := by
      rw [← hep]
      exact (hpairs e he).symm
    have hfind := find?_eq_of_mem_nodup (@Prod.fst String PlaylistRec) hnodup he
    rw [find?_upsertAll_nil] at hfind
    have hfilter : (ps.map (fun p => (p.playlist_id, p))).filter
        (fun r => decide (r.1 = e.1)) =
        (ps.filter (fun q => decide (q.playlist_id = e.1))).map
          (fun p => (p.playlist_id, p)) := by
      rw [List.filter_map]
      rfl
    rw [hfilter, List.getLast?_map] at hfind
    obtain ⟨q0, hq0, hq0e⟩ := Option.map_eq_some'.mp hfind
    have hq0p : q0 = p := by
      have := congrArg Prod.snd hq0e
      simpa [hep] using this
    rw [hkey] at hq0
    rw [hq0, hq0p]
  · show ((dedupPlaylists ps).take 200).length ≤ 200
    rw [List.length_take]
    exact Nat.min_le_left _ _

/-- Witness for C8: two search results share the ID `x`; the deduplicated
set keeps the later record (category `gym`). -/
theorem C8_witness :
    (([⟨"x", "A", "o", 1, 1, "workout"⟩, ⟨"x", "B", "o", 2, 2, "gym"⟩] :
        List PlaylistRec).filter
      (fun q => decide (q.playlist_id =
        (⟨"x", "B", "o", 2, 2, "gym"⟩ : PlaylistRec).playlist_id))).getLast? =
      some ⟨"x", "B", "o", 2, 2, "gym"⟩ :=
  (C8_dedup_last_wins
    [⟨"x", "A", "o", 1, 1, "workout"⟩, ⟨"x", "B", "o", 2, 2, "gym"⟩]).2.1
    ⟨"x", "B", "o", 2, 2, "gym"⟩ (by decide)

/-! ### The text normalizer (C7) -/

theorem dropWhile_dropWhile {α : Type} (p : α → Bool) (l : List α) :
    (l.dropWhile p).dropWhile p = l.dropWhile p := by
  induction l with
  | nil => rfl
  | cons c cs ih =>
    by_cases hc : p c
    · rw [List.dropWhile_cons_of_pos hc]
      exact ih
    · rw [List.dropWhile_cons_of_neg hc, List.dropWhile_cons_of_neg hc]

theorem collapseAux_true_eq (l : List Char) :
    collapseAux true l = (collapseAux false l).dropWhile isSpaceChar := by
  induction l with
  | nil => rfl
  | cons c cs ih =>
    by_cases hc : isSpaceChar c
    · rw [show collapseAux true (c :: cs) = collapseAux true cs from by
        simp [collapseAux, hc]]
      rw [show collapseAux false (c :: cs) = ' ' :: collapseAux true cs from by
        simp [collapseAux, hc]]
      rw [List.dropWhile_cons_of_pos (by decide : isSpaceChar ' ' = true)]
      rw [ih, dropWhile_dropWhile]
    · rw [show collapseAux true (c :: cs) = c :: collapseAux false cs from by
        simp [collapseAux, hc]]
      rw [show collapseAux false (c :: cs) = c :: collapseAux false cs from by
        simp [collapseAux, hc]]
      rw [List.dropWhile_cons_of_neg hc]

theorem dropTrailingWS_cons_of_neg {c : Char} (hc : ¬ isSpaceChar c) (l : List Char) :
    dropTrailingWS (c :: l) = c :: dropTrailingWS l := by
  unfold dropTrailingWS
  rw [List.reverse_cons, List.dropWhile_append]
  by_cases he : (l.reverse.dropWhile isSpaceChar).isEmpty
  · rw [if_pos he, List.dropWhile_cons_of_neg hc]
    have h0 : l.reverse.dropWhile isSpaceChar = [] := List.isEmpty_iff.mp he
    rw [h0]
    rfl
  · rw [if_neg he, List.reverse_append]
    rfl

theorem dropTrailingWS_cons_of_ne_nil {X : List Char} (hX : dropTrailingWS X ≠ [])
    (a : Char) : dropTrailingWS (a :: X) = a :: dropTrailingWS X := by
  unfold dropTrailingWS at hX ⊢
  rw [List.reverse_cons, List.dropWhile_append]
  have hne : ¬ (X.reverse.dropWhile isSpaceChar).isEmpty := by
    intro h
    apply hX
    rw [List.isEmpty_iff.mp h]
    rfl
  rw [if_neg hne, List.reverse_append]
  rfl

theorem dropTrailingWS_eq_nil_iff {X : List Char} :
    dropTrailingWS X = [] ↔ ∀ c ∈ X, isSpaceChar c := by
  unfold dropTrailingWS
  rw [List.reverse_eq_nil_iff, List.dropWhile_eq_nil_iff]
  constructor
  · intro h c hc
    exact h c (by simpa using hc)
  · intro h c hc
    exact h c (by simpa using hc)

theorem wordsAux_ne_nil : ∀ (l cur : List Char), ∀ w ∈ wordsAux cur l, w ≠ [] := by
  intro l
  induction l with
  | nil =>
    intro cur w hw
    rw [wordsAux] at hw
    split at hw
    · cases hw
    · next hcur =>
      obtain rfl := List.mem_singleton.mp hw
      simpa using hcur
  | cons c cs ih =>
    intro cur w hw
    rw [wordsAux] at hw
    split at hw
    · split at hw
      · exact ih [] w hw
      · next hcur =>
        rcases List.mem_cons.mp hw with rfl | hw2
        · simpa using hcur
        · exact ih [] w hw2
    · exact ih (c :: cur) w hw

theorem joinWords_cons_ne_nil {w : List Char} {ws : List (List Char)} (hw : w ≠ []) :
    joinWords (w :: ws) ≠ [] := by
  cases ws with
  | nil => simpa [joinWords] using hw
  | cons v ws => simp [joinWords]

/-- Collapsing whitespace runs and stripping is the same as joining the
whitespace-separated words with single spaces: the bundled invariant for the
induction, stated between words (first conjunct) and inside a word being
accumulated (second conjunct). -/
theorem collapse_strip_eq_joinWords : ∀ l : List Char,
    dropTrailingWS ((collapseAux false l).dropWhile isSpaceChar) =
      joinWords (wordsAux [] l) ∧
    (∀ cur : List Char, cur ≠ [] →
      cur.reverse ++ dropTrailingWS (collapseAux false l) = joinWords (wordsAux cur l)) := by
  intro l
  induction l with
  | nil =>
    refine ⟨rfl, ?_⟩
    intro cur hcur
    rw [show collapseAux false [] = [] from rfl]
    rw [show dropTrailingWS [] = [] from rfl, List.append_nil]
    rw [wordsAux, if_neg (by simpa using hcur)]
    rfl
  | cons c cs ih =>
    obtain ⟨ihG2, ihG1⟩ := ih
    by_cases hc : isSpaceChar c
    · have hcol : collapseAux false (c :: cs) = ' ' :: collapseAux true cs := by
        simp [collapseAux, hc]
      constructor
      · rw [hcol, show wordsAux [] (c :: cs) = wordsAux [] cs from by simp [wordsAux, hc]]
        rw [List.dropWhile_cons_of_pos (by decide : isSpaceChar ' ' = true)]
        rw [collapseAux_true_eq, dropWhile_dropWhile]
        exact ihG2
      · intro cur hcur
        rw [hcol]
        rw [show wordsAux cur (c :: cs) = cur.reverse :: wordsAux [] cs from by
          simp [wordsAux, hc, hcur]]
        cases hws : wordsAux [] cs with
        | nil =>
          have h1 : dropTrailingWS ((collapseAux false cs).dropWhile isSpaceChar) = [] := by
            rw [ihG2, hws]
            rfl
          have h2 : dropTrailingWS (' ' :: collapseAux true cs) = [] := by
            rw [collapseAux_true_eq, dropTrailingWS_eq_nil_iff]
            rw [dropTrailingWS_eq_nil_iff] at h1
            intro x hx
            rcases List.mem_cons.mp hx with rfl | hx2
            · decide
            · exact h1 x hx2
          rw [h2, List.append_nil]
          rfl
        | cons w ws =>
          have hXne : dropTrailingWS ((collapseAux false cs).dropWhile isSpaceChar) ≠ [] := by
            rw [ihG2, hws]
            exact joinWords_cons_ne_nil
              (wordsAux_ne_nil cs [] w (by rw [hws]; exact List.mem_cons_self w ws))
          rw [collapseAux_true_eq, dropTrailingWS_cons_of_ne_nil hXne]
          rw [ihG2, hws]
          rfl
    · have hcol : collapseAux false (c :: cs) = c :: collapseAux false cs := by
        simp [collapseAux, hc]
      constructor
      · rw [hcol, List.dropWhile_cons_of_neg hc, dropTrailingWS_cons_of_neg hc]
        rw [show wordsAux [] (c :: cs) = wordsAux [c] cs from by simp [wordsAux, hc]]
        have h1 := ihG1 [c] (by simp)
        simpa using h1
      · intro cur hcur
        rw [hcol, dropTrailingWS_cons_of_neg hc]
        rw [show wordsAux cur (c :: cs) = wordsAux (c :: cur) cs from by
          simp [wordsAux, hc]]
        have h1 := ihG1 (c :: cur) (by simp)
        rw [← h1, List.reverse_cons, List.append_assoc]
        rfl

theorem cleanString_eq_specNormalizeAmended (s : String) :
    cleanString s = specNormalizeAmended s := by
  by_cases hs : s.isEmpty
  · obtain rfl := (String.isEmpty_iff s).mp hs
    decide
  · unfold cleanString specNormalizeAmended
    rw [if_neg hs]
    apply congrArg String.mk
    exact (collapse_strip_eq_joinWords _).1

/-- Claim C7 counterexample: Python `\w` keeps the underscore, so
`clean_string` does not remove every character outside
"letters, digits, whitespace": on `"a_b"` the code returns `"a_b"` while the
spec's normalizer returns `"ab"`. -/
theorem C7_counterexample :
    cleanString "a_b" = "a_b" ∧ specNormalize "a_b" = "ab" ∧
    cleanString "a_b" ≠ specNormalize "a_b" :=
  ⟨by decide, by decide, by decide⟩

/-- Claim C7 (amended): for every input string, `clean_string` returns the
input lower-cased with all characters outside "letters, digits, underscore,
whitespace" removed, whitespace runs collapsed to a single space, and
leading/trailing whitespace trimmed (rendered as: joining the
whitespace-separated words of the filtered, lower-cased input with single
spaces); empty or null input yields the empty string, and
`clean_string "HIIT Workout!!" = "hiit workout"`. -/
theorem C7_normalizer (s : String) :
    cleanString s = specNormalizeAmended s ∧
    cleanString "" = "" ∧
    cleanString "HIIT Workout!!" = "hiit workout" :=
  ⟨cleanString_eq_specNormalizeAmended s, by decide, by decide⟩

end SpotifyIngestion
